import Mathlib

/-!
# Verification of the BoundedHandoffQueue reference design

The repository consists of Android HAL header files (`camera2.h`,
`hwcomposer.h`, `SurfaceTexture.h`): ABI declarations with documented
calling conventions, and no executable implementation.  The one piece of
behavioural design content is the single-producer/single-consumer bounded
hand-off queue with edge-triggered not-empty notification, described in
the queue-protocol comment of `camera2.h` (camera2_metadata_queue_src_ops)
and in the specification's §4.1 (BoundedHandoffQueue).  This file gives a
shallow embedding of that reference design and proves the documented
properties about it, together with models of the two other documented
behavioural contracts (`hwc_methods_t.eventControl` argument validation
and the stream timestamp monotonicity contract of
`camera2_stream_ops.set_timestamp` / `SurfaceTexture::getTimestamp`).
-/

/-- An opaque buffer handle.  The queue never inspects its contents, so a
natural number stands in for the pointer value. -/
abbrev Handle := Nat

/-- Result of `enqueue`: success, `Full` (bounded-capacity violation,
recoverable) or `Abandoned` (terminal). -/
inductive EnqueueResult
  | ok
  | full
  | abandoned
deriving DecidableEq, Repr

/-- Result of `dequeue`: a handle, `Empty` (no data, recoverable) or
`Abandoned` (terminal). -/
inductive DequeueResult
  | item (h : Handle)
  | empty
  | abandoned
deriving DecidableEq, Repr

/-- Modelled from the spec: the BoundedHandoffQueue state of §4.1, whose
implementation is not part of the repository (the headers only document
its protocol).  `capacity = 0` means unbounded (metadata-queue case),
`capacity > 0` bounded (image-stream case).  `waitingEdge` is the
"dequeue has returned empty since last notify" flag of the data model;
`abandoned` mirrors `SurfaceTexture::mAbandoned` (initialized to false,
set to true by `abandon`, never cleared). -/
structure HandoffQueue where
  capacity : Nat
  buffers : List Handle
  waitingEdge : Bool
  abandoned : Bool
deriving DecidableEq, Repr

namespace HandoffQueue

/-- The queue is created empty, not abandoned, with no pending edge. -/
def init (capacity : Nat) : HandoffQueue :=
  { capacity := capacity, buffers := [], waitingEdge := false, abandoned := false }

/-- Modelled from the spec: `enqueue(handle) -> Result<(), Full>` of §4.1
(no implementation exists in the repository).  Appends to the tail; fails
with `full` if `length == capacity` in the bounded case, with `abandoned`
after `abandon()`.  The middle component of the result is `true` exactly
when the producer invokes the consumer's not-empty notification before
returning: on success, when the queue transitioned from empty to
non-empty or the consumer is in the waiting edge state.  A sent
notification consumes the edge. -/
def enqueue (q : HandoffQueue) (h : Handle) :
    EnqueueResult × Bool × HandoffQueue :=
  if q.abandoned then
    (.abandoned, false, q)
  else if 0 < q.capacity ∧ q.buffers.length = q.capacity then
    (.full, false, q)
  else
    (.ok, q.buffers.isEmpty || q.waitingEdge,
      { q with buffers := q.buffers ++ [h], waitingEdge := false })

/-- Modelled from the spec: `dequeue() -> Option<handle>` of §4.1 (no
implementation exists in the repository).  Removes and returns the head;
returns `empty` on an empty queue, setting the edge flag so that the next
successful enqueue triggers a fresh notification; returns `abandoned`
after `abandon()`. -/
def dequeue (q : HandoffQueue) : DequeueResult × HandoffQueue :=
  if q.abandoned then
    (.abandoned, q)
  else
    match q.buffers with
    | [] => (.empty, { q with waitingEdge := true })
    | h :: rest => (.item h, { q with buffers := rest })

/-- Modelled from the spec: `pending_count() -> usize` of §4.1
(`buffer_count` in camera2.h; no implementation exists in the
repository).  Returns the current queue length and leaves the state
unchanged; it sends no notification. -/
def pending_count (q : HandoffQueue) : Nat × HandoffQueue :=
  (q.buffers.length, q)

/-- Modelled from the spec: `abandon()` of §4.1 and
`SurfaceTexture::abandon` (no implementation exists in the repository).
Frees all the buffers and marks the queue permanently closed; the
abandoned state is never left. -/
def abandon (q : HandoffQueue) : HandoffQueue :=
  { q with buffers := [], abandoned := true }

end HandoffQueue

/-- One operation of the producer/consumer session. -/
inductive QueueOp
  | enq (h : Handle)
  | deq
  | aband
  | count
deriving DecidableEq, Repr

namespace HandoffQueue

/-- The state reached after one operation (discarding the result). -/
def step (q : HandoffQueue) : QueueOp → HandoffQueue
  | .enq h => (q.enqueue h).2.2
  | .deq => (q.dequeue).2
  | .aband => q.abandon
  | .count => (q.pending_count).2

/-- The state reached after a sequence of operations. -/
def run (q : HandoffQueue) : List QueueOp → HandoffQueue
  | [] => q
  | op :: ops => (q.step op).run ops

end HandoffQueue

/-- The observable result of one operation. -/
inductive OpResult
  | enqRes (r : EnqueueResult)
  | deqRes (r : DequeueResult)
  | countRes (n : Nat)
  | abandDone
deriving DecidableEq, Repr

namespace HandoffQueue

/-- The observable result trace of a sequence of operations. -/
def results (q : HandoffQueue) : List QueueOp → List OpResult
  | [] => []
  | .enq h :: ops => .enqRes (q.enqueue h).1 :: (q.step (.enq h)).results ops
  | .deq :: ops => .deqRes (q.dequeue).1 :: (q.step .deq).results ops
  | .aband :: ops => .abandDone :: q.abandon.results ops
  | .count :: ops => .countRes (q.pending_count).1 :: q.results ops

end HandoffQueue

/-- A state together with the ordered list of handles successfully
enqueued so far and the ordered list of handles returned by dequeue so
far, for stating the FIFO correspondence. -/
structure TraceResult where
  state : HandoffQueue
  enqueued : List Handle
  dequeued : List Handle
deriving DecidableEq, Repr

namespace HandoffQueue

/-- Runs a sequence of operations, accumulating the handles accepted by
`enqueue` and the handles returned by `dequeue`, in order. -/
def trace (q : HandoffQueue) (enqd deqd : List Handle) :
    List QueueOp → TraceResult
  | [] => ⟨q, enqd, deqd⟩
  | .enq h :: ops =>
      match q.enqueue h with
      | (.ok, _, q₁) => q₁.trace (enqd ++ [h]) deqd ops
      | (_, _, q₁) => q₁.trace enqd deqd ops
  | .deq :: ops =>
      match q.dequeue with
      | (.item h, q₁) => q₁.trace enqd (deqd ++ [h]) ops
      | (_, q₁) => q₁.trace enqd deqd ops
  | .aband :: ops => q.abandon.trace enqd deqd ops
  | .count :: ops => q.trace enqd deqd ops

end HandoffQueue

/-- A queue state is reachable when some operation sequence produces it
from a freshly created queue of some capacity. -/
def Reachable (q : HandoffQueue) : Prop :=
  ∃ capacity ops, HandoffQueue.run (HandoffQueue.init capacity) ops = q

/-- The state invariant maintained by every operation: the waiting edge
is only ever set on an empty queue, the bounded length limit is
respected, and an abandoned queue holds no buffers. -/
def QueueInv (q : HandoffQueue) : Prop :=
  (q.waitingEdge = true → q.buffers = []) ∧
  (0 < q.capacity → q.buffers.length ≤ q.capacity) ∧
  (q.abandoned = true → q.buffers = [])

theorem queueInv_init (capacity : Nat) : QueueInv (HandoffQueue.init capacity) := by
  simp [QueueInv, HandoffQueue.init]

theorem queueInv_step (q : HandoffQueue) (op : QueueOp) (hq : QueueInv q) :
    QueueInv (q.step op) := by
  obtain ⟨h1, h2, h3⟩ := hq
  cases op with
  | enq h =>
      simp only [HandoffQueue.step, HandoffQueue.enqueue]
      split
      · exact ⟨h1, h2, h3⟩
      · split
        · exact ⟨h1, h2, h3⟩
        · rename_i hab hfull
          refine ⟨by simp [QueueInv], ?_, ?_⟩
          · intro hcap
            have hle := h2 hcap
            have hne : q.buffers.length ≠ q.capacity := fun he => hfull ⟨hcap, he⟩
            simp only [List.length_append, List.length_cons, List.length_nil]
            omega
          · intro hab2
            exact absurd hab2 hab
  | deq =>
      simp only [HandoffQueue.step, HandoffQueue.dequeue]
      split
      · exact ⟨h1, h2, h3⟩
      · rename_i hab
        cases hb : q.buffers with
        | nil =>
            simp only [hb]
            refine ⟨fun _ => rfl, ?_, fun hab2 => absurd hab2 hab⟩
            intro hcap
            simp
        | cons x rest =>
            simp only [hb]
            refine ⟨?_, ?_, fun hab2 => absurd hab2 hab⟩
            · intro hedge
              exact absurd (h1 hedge) (by simp [hb])
            · intro hcap
              have hle := h2 hcap
              rw [hb] at hle
              simp only [List.length_cons] at hle
              simpa using Nat.le_of_succ_le hle
  | aband =>
      exact ⟨fun _ => rfl, fun _ => by simp [HandoffQueue.step, HandoffQueue.abandon],
        fun _ => rfl⟩
  | count =>
      exact ⟨h1, h2, h3⟩

theorem queueInv_run (q : HandoffQueue) (ops : List QueueOp) (hq : QueueInv q) :
    QueueInv (q.run ops) := by
  induction ops generalizing q with
  | nil => exact hq
  | cons op ops ih => exact ih _ (queueInv_step q op hq)

theorem reachable_queueInv (q : HandoffQueue) (hq : Reachable q) : QueueInv q := by
  obtain ⟨capacity, ops, hrun⟩ := hq
  exact hrun ▸ queueInv_run _ ops (queueInv_init capacity)


/-- A successful enqueue appends the handle, clears the edge, and
notifies exactly when the queue was empty or the edge was pending. -/
theorem enqueue_of_ok (q : HandoffQueue) (h : Handle)
    (hok : (q.enqueue h).1 = EnqueueResult.ok) :
    q.enqueue h = (.ok, q.buffers.isEmpty || q.waitingEdge,
      { q with buffers := q.buffers ++ [h], waitingEdge := false }) := by
  simp only [HandoffQueue.enqueue] at hok ⊢
  split at hok
  · simp at hok
  · rename_i hab
    split at hok
    · simp at hok
    · rename_i hfull
      rw [if_neg hab, if_neg hfull]

/-- A dequeue that returns empty happens on a non-abandoned empty queue
and only sets the waiting edge. -/
theorem dequeue_of_empty (q : HandoffQueue)
    (hemp : (q.dequeue).1 = DequeueResult.empty) :
    q.abandoned = false ∧ q.buffers = [] ∧
      q.dequeue = (.empty, { q with waitingEdge := true }) := by
  simp only [HandoffQueue.dequeue] at hemp
  split at hemp
  · simp at hemp
  · rename_i hab
    cases hb : q.buffers with
    | nil =>
        refine ⟨by simpa using hab, rfl, ?_⟩
        simp only [HandoffQueue.dequeue, if_neg hab, hb]
    | cons x rest =>
        rw [hb] at hemp
        simp at hemp

/-- C1: on a reachable queue, a not-empty notification is invoked by a
successful enqueue if and only if that enqueue transitions the queue from
empty to non-empty or the waiting edge (set by a dequeue that returned
empty) is set; after a dequeue that returns empty, the next successful
enqueue notifies exactly once — the notifying enqueue reports `true`, and
a further successful enqueue for the same edge reports `false` — and a
successful enqueue while buffers are undrained and no edge is pending
invokes no notification. -/
theorem enqueue_notify_edge_triggered (q : HandoffQueue) (_hq : Reachable q) (h : Handle) :
    ((q.enqueue h).1 = .ok →
      ((q.enqueue h).2.1 = true ↔ (q.buffers = [] ∨ q.waitingEdge = true))) ∧
    ((q.dequeue).1 = .empty →
      ∀ h₁ h₂ : Handle,
        (((q.dequeue).2.enqueue h₁).1 = .ok →
          (((q.dequeue).2.enqueue h₁).2.1 = true ∧
            ((((q.dequeue).2.enqueue h₁).2.2.enqueue h₂).1 = .ok →
              (((q.dequeue).2.enqueue h₁).2.2.enqueue h₂).2.1 = false)))) ∧
    (q.buffers ≠ [] → q.waitingEdge = false → (q.enqueue h).2.1 = false) := by
  refine ⟨?_, ?_, ?_⟩
  · intro hok
    rw [enqueue_of_ok q h hok]
    simp [List.isEmpty_iff]
  · intro hemp h₁ h₂
    obtain ⟨hab, hb, hdq⟩ := dequeue_of_empty q hemp
    rw [hdq]
    intro hok
    rw [enqueue_of_ok _ h₁ hok]
    constructor
    · simp
    · intro hok₂
      rw [enqueue_of_ok _ h₂ hok₂]
      simp [hb]
  · intro hne hedge
    simp only [HandoffQueue.enqueue]
    split
    · rfl
    · split
      · rfl
      · simp [hedge, List.isEmpty_iff, hne]

/-- Witness for C1 at a concrete reachable state: the first enqueue on a
fresh queue notifies, and the enqueue following a dequeue that returned
empty notifies. -/
theorem enqueue_notify_edge_triggered_witness :
    ((HandoffQueue.init 2).enqueue 5).2.1 = true ∧
    (((HandoffQueue.init 2).dequeue.2.enqueue 1).2.1 = true) := by
  have h := enqueue_notify_edge_triggered (HandoffQueue.init 2) ⟨2, [], rfl⟩ 5
  exact ⟨(h.1 (by decide)).mpr (Or.inl rfl), (h.2.1 (by decide) 1 2 (by decide)).1⟩

/-- An enqueue on an abandoned queue fails terminally and changes nothing. -/
theorem enqueue_abandoned (q : HandoffQueue) (h : Handle) (hab : q.abandoned = true) :
    q.enqueue h = (.abandoned, false, q) := by
  simp [HandoffQueue.enqueue, hab]

/-- An enqueue on a full bounded queue fails with `full` and changes nothing. -/
theorem enqueue_full (q : HandoffQueue) (h : Handle) (hab : q.abandoned = false)
    (hcap : 0 < q.capacity) (hlen : q.buffers.length = q.capacity) :
    q.enqueue h = (.full, false, q) := by
  simp [HandoffQueue.enqueue, hab, hcap, hlen]

/-- An enqueue on a non-abandoned, non-full queue succeeds. -/
theorem enqueue_accepts (q : HandoffQueue) (h : Handle) (hab : q.abandoned = false)
    (hfull : ¬(0 < q.capacity ∧ q.buffers.length = q.capacity)) :
    q.enqueue h = (.ok, q.buffers.isEmpty || q.waitingEdge,
      { q with buffers := q.buffers ++ [h], waitingEdge := false }) := by
  rw [HandoffQueue.enqueue, if_neg (by simp [hab]), if_neg hfull]

/-- A dequeue on an abandoned queue fails terminally and changes nothing. -/
theorem dequeue_abandoned (q : HandoffQueue) (hab : q.abandoned = true) :
    q.dequeue = (.abandoned, q) := by
  simp [HandoffQueue.dequeue, hab]

/-- A dequeue on a non-abandoned empty queue returns empty and sets the edge. -/
theorem dequeue_empty (q : HandoffQueue) (hab : q.abandoned = false)
    (hb : q.buffers = []) :
    q.dequeue = (.empty, { q with waitingEdge := true }) := by
  rw [HandoffQueue.dequeue, if_neg (by simp [hab]), hb]

/-- A dequeue on a non-abandoned non-empty queue removes and returns the head. -/
theorem dequeue_cons (q : HandoffQueue) (x : Handle) (rest : List Handle)
    (hab : q.abandoned = false) (hb : q.buffers = x :: rest) :
    q.dequeue = (.item x, { q with buffers := rest }) := by
  rw [HandoffQueue.dequeue, if_neg (by simp [hab]), hb]

/-- Every operation preserves the configured capacity. -/
theorem step_capacity (q : HandoffQueue) (op : QueueOp) :
    (q.step op).capacity = q.capacity := by
  cases op with
  | enq h =>
      simp only [HandoffQueue.step, HandoffQueue.enqueue]
      split
      · rfl
      · split
        · rfl
        · rfl
  | deq =>
      simp only [HandoffQueue.step, HandoffQueue.dequeue]
      split
      · rfl
      · cases q.buffers
        · rfl
        · rfl
  | aband => rfl
  | count => rfl

/-- A whole run preserves the configured capacity. -/
theorem run_capacity (ops : List QueueOp) :
    ∀ q : HandoffQueue, (q.run ops).capacity = q.capacity := by
  induction ops with
  | nil => intro q; rfl
  | cons op ops ih =>
      intro q
      rw [HandoffQueue.run, ih (q.step op), step_capacity]

/-- The state reached by the accumulating trace is the state reached by
the plain run. -/
theorem trace_state (ops : List QueueOp) :
    ∀ (q : HandoffQueue) (enqd deqd : List Handle),
      (q.trace enqd deqd ops).state = q.run ops := by
  induction ops with
  | nil => intro q enqd deqd; rfl
  | cons op ops ih =>
      intro q enqd deqd
      cases op with
      | enq h =>
          rcases he : q.enqueue h with ⟨r, n, q₁⟩
          have hstep : q.step (.enq h) = q₁ := by simp [HandoffQueue.step, he]
          cases r <;>
            simp only [HandoffQueue.trace, HandoffQueue.run, hstep, he] <;>
            exact ih ..
      | deq =>
          rcases hd : q.dequeue with ⟨r, q₁⟩
          have hstep : q.step .deq = q₁ := by simp [HandoffQueue.step, hd]
          cases r <;>
            simp only [HandoffQueue.trace, HandoffQueue.run, hstep, hd] <;>
            exact ih ..
      | aband =>
          simp only [HandoffQueue.trace, HandoffQueue.run, HandoffQueue.step]
          exact ih ..
      | count =>
          simp only [HandoffQueue.trace, HandoffQueue.run, HandoffQueue.step,
            HandoffQueue.pending_count]
          exact ih ..

/-- FIFO correspondence along any trace: the successfully enqueued
handles are exactly the dequeued handles followed by a remainder, and on
a live (non-abandoned) final state the remainder is precisely the
buffers still queued. -/
theorem trace_fifo (ops : List QueueOp) :
    ∀ (q : HandoffQueue) (enqd deqd rest : List Handle),
      enqd = deqd ++ rest →
      (q.abandoned = false → rest = q.buffers) →
      ∃ rest₁,
        (q.trace enqd deqd ops).enqueued = (q.trace enqd deqd ops).dequeued ++ rest₁ ∧
        ((q.trace enqd deqd ops).state.abandoned = false →
          rest₁ = (q.trace enqd deqd ops).state.buffers) := by
  induction ops with
  | nil => intro q enqd deqd rest h1 h2; exact ⟨rest, h1, h2⟩
  | cons op ops ih =>
      intro q enqd deqd rest h1 h2
      cases op with
      | enq h =>
          by_cases hab : q.abandoned = true
          · rw [HandoffQueue.trace, enqueue_abandoned q h hab]
            exact ih q enqd deqd rest h1 h2
          · have hab' : q.abandoned = false := by simpa using hab
            by_cases hfull : 0 < q.capacity ∧ q.buffers.length = q.capacity
            · rw [HandoffQueue.trace, enqueue_full q h hab' hfull.1 hfull.2]
              exact ih q enqd deqd rest h1 h2
            · rw [HandoffQueue.trace, enqueue_accepts q h hab' hfull]
              refine ih _ _ _ (rest ++ [h]) ?_ ?_
              · rw [h1, List.append_assoc]
              · intro _
                rw [h2 hab']
      | deq =>
          by_cases hab : q.abandoned = true
          · rw [HandoffQueue.trace, dequeue_abandoned q hab]
            exact ih q enqd deqd rest h1 h2
          · have hab' : q.abandoned = false := by simpa using hab
            cases hb : q.buffers with
            | nil =>
                rw [HandoffQueue.trace, dequeue_empty q hab' hb]
                refine ih _ _ _ rest h1 ?_
                intro _
                rw [h2 hab', hb]
            | cons x rest₂ =>
                rw [HandoffQueue.trace, dequeue_cons q x rest₂ hab' hb]
                have hrest : rest = x :: rest₂ := by rw [h2 hab', hb]
                refine ih _ _ _ rest₂ ?_ ?_
                · rw [h1, hrest, List.append_assoc]
                  rfl
                · intro _
                  rfl
      | aband =>
          rw [HandoffQueue.trace]
          refine ih _ _ _ rest h1 ?_
          intro habs
          simp [HandoffQueue.abandon] at habs
      | count =>
          rw [HandoffQueue.trace]
          exact ih q enqd deqd rest h1 h2

/-- C2: for every operation sequence, the reported queue length never
exceeds the capacity (bounded case), and the handles returned by dequeue
are exactly an initial segment, in order, of the handles successfully
enqueued — so nothing is invented, duplicated, or reordered, and on a
live final state the not-yet-dequeued remainder is precisely what is
still buffered. -/
theorem queue_fifo_no_invention (capacity : Nat) (ops : List QueueOp) :
    (0 < capacity →
      (((HandoffQueue.init capacity).trace [] [] ops).state.pending_count).1 ≤ capacity) ∧
    ∃ rest,
      ((HandoffQueue.init capacity).trace [] [] ops).enqueued =
        ((HandoffQueue.init capacity).trace [] [] ops).dequeued ++ rest ∧
      (((HandoffQueue.init capacity).trace [] [] ops).state.abandoned = false →
        rest = ((HandoffQueue.init capacity).trace [] [] ops).state.buffers) := by
  constructor
  · intro hcap
    have hinv := queueInv_run (HandoffQueue.init capacity) ops (queueInv_init capacity)
    have hcapeq : ((HandoffQueue.init capacity).run ops).capacity = capacity :=
      run_capacity ops (HandoffQueue.init capacity)
    rw [HandoffQueue.pending_count, trace_state]
    have := hinv.2.1 (by rw [hcapeq]; exact hcap)
    rw [hcapeq] at this
    exact this
  · exact trace_fifo ops (HandoffQueue.init capacity) [] [] [] rfl (fun _ => rfl)

/-- Witness for C2 on a concrete run with capacity 2. -/
theorem queue_fifo_no_invention_witness :
    ((((HandoffQueue.init 2).trace [] []
        [QueueOp.enq 7, QueueOp.enq 8, QueueOp.deq]).state.pending_count).1 ≤ 2) ∧
    ∃ rest,
      ((HandoffQueue.init 2).trace [] [] [QueueOp.enq 7, QueueOp.enq 8, QueueOp.deq]).enqueued =
        ((HandoffQueue.init 2).trace [] [] [QueueOp.enq 7, QueueOp.enq 8, QueueOp.deq]).dequeued
          ++ rest ∧
      (((HandoffQueue.init 2).trace [] []
          [QueueOp.enq 7, QueueOp.enq 8, QueueOp.deq]).state.abandoned = false →
        rest = ((HandoffQueue.init 2).trace [] []
          [QueueOp.enq 7, QueueOp.enq 8, QueueOp.deq]).state.buffers) := by
  have h := queue_fifo_no_invention 2 [QueueOp.enq 7, QueueOp.enq 8, QueueOp.deq]
  exact ⟨h.1 (by decide), h.2⟩

/-- C3: on every reachable state the length lies between 0 and the
capacity inclusive (bounded case), and an enqueue attempted when the
length equals the capacity of a bounded queue returns `full` without
modifying the contents, the length, the edge flag, or anything else in
the state. -/
theorem full_enqueue_rejected (q : HandoffQueue) (hq : Reachable q) :
    (0 < q.capacity → q.buffers.length ≤ q.capacity) ∧
    (∀ h : Handle, 0 < q.capacity → q.buffers.length = q.capacity →
      (q.enqueue h).1 = .full ∧ (q.enqueue h).2.2 = q) := by
  have hinv := reachable_queueInv q hq
  refine ⟨hinv.2.1, ?_⟩
  intro h hcap hlen
  have hab : q.abandoned = false := by
    cases habs : q.abandoned with
    | false => rfl
    | true =>
        have hb := hinv.2.2 habs
        rw [hb] at hlen
        simp at hlen
        omega
  rw [enqueue_full q h hab hcap hlen]
  exact ⟨rfl, rfl⟩

/-- Witness for C3 at a concrete reachable full state of capacity 1. -/
theorem full_enqueue_rejected_witness :
    ((HandoffQueue.run (HandoffQueue.init 1) [QueueOp.enq 9]).enqueue 3).1 =
      EnqueueResult.full ∧
    ((HandoffQueue.run (HandoffQueue.init 1) [QueueOp.enq 9]).enqueue 3).2.2 =
      HandoffQueue.run (HandoffQueue.init 1) [QueueOp.enq 9] := by
  have h := full_enqueue_rejected (HandoffQueue.run (HandoffQueue.init 1) [QueueOp.enq 9])
    ⟨1, [QueueOp.enq 9], rfl⟩
  exact h.2 3 (by decide) (by decide)

/-- No single operation clears the abandoned flag. -/
theorem step_abandoned (q : HandoffQueue) (op : QueueOp) (hab : q.abandoned = true) :
    (q.step op).abandoned = true := by
  cases op with
  | enq h => rw [HandoffQueue.step, enqueue_abandoned q h hab]; exact hab
  | deq => rw [HandoffQueue.step, dequeue_abandoned q hab]; exact hab
  | aband => rfl
  | count => exact hab

/-- No operation sequence clears the abandoned flag. -/
theorem run_abandoned (ops : List QueueOp) :
    ∀ q : HandoffQueue, q.abandoned = true → (q.run ops).abandoned = true := by
  induction ops with
  | nil => intro q hab; exact hab
  | cons op ops ih => intro q hab; exact ih (q.step op) (step_abandoned q op hab)

/-- C4: after `abandon()`, the queue is in the abandoned state and stays
there under every further operation sequence; every subsequent enqueue
and every subsequent dequeue deterministically returns the terminal
`abandoned` result (a constructor distinct from `full`, `empty`, and any
handle) and leaves the state unchanged, so no later operation returns the
queue to a usable state. -/
theorem abandon_terminal_absorbing (q : HandoffQueue) (ops : List QueueOp) (h : Handle) :
    ((q.abandon.run ops).abandoned = true) ∧
    (((q.abandon.run ops).enqueue h).1 = .abandoned ∧
      ((q.abandon.run ops).enqueue h).2.2 = q.abandon.run ops) ∧
    (((q.abandon.run ops).dequeue).1 = .abandoned ∧
      ((q.abandon.run ops).dequeue).2 = q.abandon.run ops) := by
  have habs : (q.abandon.run ops).abandoned = true := run_abandoned ops q.abandon rfl
  refine ⟨habs, ?_, ?_⟩
  · rw [enqueue_abandoned _ h habs]
    exact ⟨rfl, rfl⟩
  · rw [dequeue_abandoned _ habs]
    exact ⟨rfl, rfl⟩

/-- C5: the documented scenario at capacity 4, with A,B,C,D,E rendered as
1,2,3,4,5: four enqueues succeed, the fifth fails with `full`, a dequeue
returns A, the retried enqueue of E succeeds, and the remaining dequeues
yield B, C, D, E and then `empty`. -/
theorem scenario_capacity_four :
    HandoffQueue.results (HandoffQueue.init 4)
      [QueueOp.enq 1, QueueOp.enq 2, QueueOp.enq 3, QueueOp.enq 4, QueueOp.enq 5,
        QueueOp.deq, QueueOp.enq 5, QueueOp.deq, QueueOp.deq, QueueOp.deq, QueueOp.deq,
        QueueOp.deq] =
      [OpResult.enqRes .ok, OpResult.enqRes .ok, OpResult.enqRes .ok, OpResult.enqRes .ok,
        OpResult.enqRes .full, OpResult.deqRes (.item 1), OpResult.enqRes .ok,
        OpResult.deqRes (.item 2), OpResult.deqRes (.item 3), OpResult.deqRes (.item 4),
        OpResult.deqRes (.item 5), OpResult.deqRes .empty] := by
  decide

/-- C6: `pending_count` returns the current number of queued elements and
leaves the entire state (contents, order, edge flag, abandoned flag)
unchanged; it never notifies, and the notification decision of any
enqueue is a function of the queue state alone — `true` on a successful
enqueue exactly on the empty-to-non-empty edge or a pending
observed-empty edge, `false` on every failed enqueue — so a zero count
creates no notification obligation. -/
theorem pending_count_pure (q : HandoffQueue) (h : Handle) :
    (q.pending_count).1 = q.buffers.length ∧
    (q.pending_count).2 = q ∧
    ((q.enqueue h).1 = .ok →
      ((q.enqueue h).2.1 = true ↔ (q.buffers = [] ∨ q.waitingEdge = true))) ∧
    ((q.enqueue h).1 ≠ .ok → (q.enqueue h).2.1 = false) := by
  refine ⟨rfl, rfl, ?_, ?_⟩
  · intro hok
    rw [enqueue_of_ok q h hok]
    simp [List.isEmpty_iff]
  · intro hnok
    by_cases hab : q.abandoned = true
    · rw [enqueue_abandoned q h hab]
    · have hab' : q.abandoned = false := by simpa using hab
      by_cases hfull : 0 < q.capacity ∧ q.buffers.length = q.capacity
      · rw [enqueue_full q h hab' hfull.1 hfull.2]
      · rw [enqueue_accepts q h hab' hfull] at hnok
        exact absurd rfl hnok

/-- Witness for C6 at a concrete state: the count on a fresh queue is
read without changing the state, and the subsequent first enqueue still
notifies. -/
theorem pending_count_pure_witness :
    ((HandoffQueue.init 3).pending_count).2 = HandoffQueue.init 3 ∧
    ((HandoffQueue.init 3).enqueue 5).2.1 = true :=
  ⟨(pending_count_pure (HandoffQueue.init 3) 5).2.1,
    ((pending_count_pure (HandoffQueue.init 3) 5).2.2.1 (by decide)).mpr (Or.inl rfl)⟩

/-- Modelled from the spec: the `HWC_EVENT_VSYNC` constant is declared in
`hwcomposer_defs.h`, which is not part of the repository; its concrete
value is immaterial to the eventControl contract. -/
def HWC_EVENT_VSYNC : Int := 0

/-- The POSIX `EINVAL` error number used by the HAL contracts. -/
def EINVAL : Int := 22

/-- Modelled from the spec: `hwc_methods_t.eventControl`, whose vendor
implementation is not part of the repository.  Models the contract
documented in `hwcomposer.h`: the only supported event is
`HWC_EVENT_VSYNC`, and the call returns `-EINVAL` if the event parameter
is not one of the supported events or the enabled parameter is not 0
or 1.  The `dev` argument stands for the device the call is made on. -/
def eventControl (_dev : Nat) (event enabled : Int) : Int :=
  if event = HWC_EVENT_VSYNC ∧ (enabled = 0 ∨ enabled = 1) then 0
  else -EINVAL

/-- C9: for every device and argument pair, `eventControl` returns
`-EINVAL` whenever the event parameter is not `HWC_EVENT_VSYNC` or the
enabled parameter is neither 0 nor 1. -/
theorem eventControl_rejects_invalid (dev : Nat) (event enabled : Int)
    (hbad : event ≠ HWC_EVENT_VSYNC ∨ (enabled ≠ 0 ∧ enabled ≠ 1)) :
    eventControl dev event enabled = -EINVAL := by
  rw [eventControl, if_neg]
  rintro ⟨hev, hen⟩
  rcases hbad with hb | ⟨h0, h1⟩
  · exact hb hev
  · rcases hen with he | he
    · exact h0 he
    · exact h1 he

/-- Witness for C9: a wrong event and a wrong enabled flag are both
rejected. -/
theorem eventControl_rejects_invalid_witness :
    eventControl 0 1 0 = -EINVAL ∧ eventControl 0 HWC_EVENT_VSYNC 2 = -EINVAL :=
  ⟨eventControl_rejects_invalid 0 1 0 (Or.inl (by decide)),
    eventControl_rejects_invalid 0 HWC_EVENT_VSYNC 2 (Or.inr ⟨by decide, by decide⟩)⟩

/-- Modelled from the spec: the per-stream image/timestamp state of
`SurfaceTexture`, whose implementation is not part of the repository.
`pending` holds the timestamps attached to queued frames via
`camera2_stream_ops.set_timestamp`, in queue order; `current` is
`mCurrentTimestamp`, the timestamp of the image set by the most recent
`updateTexImage` call. -/
structure StreamState where
  pending : List Int
  current : Int
deriving DecidableEq, Repr

namespace StreamState

/-- Modelled from the spec: the producer attaching the `set_timestamp`
value `t` to the next frame of the stream. -/
def queueFrame (s : StreamState) (t : Int) : StreamState :=
  { s with pending := s.pending ++ [t] }

/-- Modelled from the spec: `SurfaceTexture::updateTexImage` latches the
next queued image, making its timestamp current; with no queued image the
current image and timestamp are kept. -/
def updateTexImage (s : StreamState) : StreamState :=
  match s.pending with
  | [] => s
  | t :: rest => { pending := rest, current := t }

/-- Modelled from the spec: `SurfaceTexture::getTimestamp` returns the
timestamp associated with the image set by the most recent call to
`updateTexImage`. -/
def getTimestamp (s : StreamState) : Int :=
  s.current

end StreamState

/-- The documented ordering discipline of a preview stream: the current
timestamp precedes every pending one and the pending timestamps are
strictly ascending in queue order. -/
def StreamInv (s : StreamState) : Prop :=
  List.Chain' (· < ·) (s.current :: s.pending)

/-- C10: within one preview stream whose `set_timestamp` values obey the
documented adjacent-frame monotonicity, the timestamp of any later frame
is strictly greater than that of any earlier frame; `getTimestamp`
returns the timestamp set by the most recent `updateTexImage`, an
`updateTexImage` never makes the returned timestamp decrease and strictly
increases it whenever a queued frame is latched, and both latching and
queueing a strictly newer frame preserve the stream ordering
discipline. -/
theorem timestamps_monotone (ts : List Int) (hts : List.Chain' (· < ·) ts)
    (s : StreamState) (hs : StreamInv s) (t : Int)
    (ht : ∀ u ∈ s.current :: s.pending, u < t) :
    (∀ i j : Fin ts.length, (i : Nat) < (j : Nat) → ts.get i < ts.get j) ∧
    s.getTimestamp = s.current ∧
    s.getTimestamp ≤ (s.updateTexImage).getTimestamp ∧
    (s.pending ≠ [] → s.getTimestamp < (s.updateTexImage).getTimestamp) ∧
    StreamInv s.updateTexImage ∧
    StreamInv (s.queueFrame t) := by
  have hpair : List.Pairwise (· < ·) ts := List.chain'_iff_pairwise.mp hts
  refine ⟨fun i j hij => List.pairwise_iff_get.mp hpair i j hij, rfl, ?_, ?_, ?_, ?_⟩
  · cases hb : s.pending with
    | nil => simp [StreamState.updateTexImage, StreamState.getTimestamp, hb]
    | cons t₀ rest =>
        have := hs
        rw [StreamInv, hb, List.chain'_cons] at this
        simp only [StreamState.updateTexImage, StreamState.getTimestamp, hb]
        exact le_of_lt this.1
  · intro hne
    cases hb : s.pending with
    | nil => exact absurd hb hne
    | cons t₀ rest =>
        have := hs
        rw [StreamInv, hb, List.chain'_cons] at this
        simp only [StreamState.updateTexImage, StreamState.getTimestamp, hb]
        exact this.1
  · cases hb : s.pending with
    | nil =>
        rw [StreamState.updateTexImage, hb]
        exact hs
    | cons t₀ rest =>
        have := hs
        rw [StreamInv, hb, List.chain'_cons] at this
        rw [StreamState.updateTexImage, hb]
        exact this.2
  · rw [StreamInv, StreamState.queueFrame]
    have : s.current :: (s.pending ++ [t]) = (s.current :: s.pending) ++ [t] := rfl
    rw [this, List.chain'_append]
    refine ⟨hs, List.chain'_singleton t, ?_⟩
    intro x hx y hy
    simp only [List.head?_cons, Option.mem_def, Option.some.injEq] at hy
    subst hy
    exact ht x (List.mem_of_mem_getLast? hx)

/-- Witness for C10 on a concrete stream and state: frame 0 of the
stream `[1, 2, 5]` precedes frame 2, and latching the next queued image
strictly increases the returned timestamp. -/
theorem timestamps_monotone_witness :
    ([1, 2, 5] : List Int).get ⟨0, by decide⟩ < ([1, 2, 5] : List Int).get ⟨2, by decide⟩ ∧
    (StreamState.mk [4, 6] 2).getTimestamp <
      ((StreamState.mk [4, 6] 2).updateTexImage).getTimestamp := by
  have h := timestamps_monotone [1, 2, 5] (by norm_num [List.chain'_cons])
    (StreamState.mk [4, 6] 2)
    (by unfold StreamInv; norm_num [List.chain'_cons]) 9 (by decide)
  exact ⟨h.1 ⟨0, by decide⟩ ⟨2, by decide⟩ (by decide), h.2.2.2.1 (by decide)⟩
